import Mathlib

/-!
Shallow embedding of the notes service in `src/main.py` (FastAPI, in-memory
store).  Timestamps are modelled as natural-number clock readings: every call
of `utc_now_iso()` in the Python code becomes an explicit `now : Nat`
argument.  The dictionary `notes_store : Dict[int, Note]` is modelled as an
association list in insertion order (Python dicts preserve insertion order;
assigning to an existing key replaces the value in place, assigning a fresh
key appends).  Python's `sorted(notes_store)` over the keys is modelled with
`List.insertionSort (· ≤ ·)` (on a list of naturals any correct sort yields
the same list).
-/

/-- The `Note` pydantic model of `main.py`. -/
structure Note where
  id : Nat
  title : String
  content : String
  created_at : Nat
  updated_at : Nat
deriving DecidableEq, Repr

/-- The module-level mutable state of `main.py`: `notes_store` and `next_id`. -/
structure AppState where
  notes_store : List (Nat × Note)
  next_id : Nat
deriving DecidableEq, Repr

/-- The initial module state: empty store, `next_id = 1`. -/
def initState : AppState := ⟨[], 1⟩

/-- Python dict assignment `d[k] = v`: replace in place when the key is
present, append otherwise. -/
def dictSet (store : List (Nat × Note)) (k : Nat) (v : Note) : List (Nat × Note) :=
  if store.any (fun p => p.1 == k) then
    store.map (fun p => if p.1 == k then (k, v) else p)
  else
    store ++ [(k, v)]

/-- Python dict deletion `del d[k]`. -/
def dictDel (store : List (Nat × Note)) (k : Nat) : List (Nat × Note) :=
  store.filter (fun p => p.1 != k)

/-- Python's `str.strip()` on the character list: drop leading and trailing
whitespace. -/
def pyStripList (l : List Char) : List Char :=
  ((l.dropWhile Char.isWhitespace).reverse.dropWhile Char.isWhitespace).reverse

/-- Python's `str.strip()`. -/
def pyStrip (s : String) : String :=
  ⟨pyStripList s.data⟩

/-- Python's `str.lower()`: lowercase every character. -/
def pyLower (s : String) : String :=
  ⟨s.data.map Char.toLower⟩

/-- Python's substring test `needle in hay` on character lists. -/
def containsSub (needle : List Char) : List Char → Bool
  | [] => needle.isEmpty
  | c :: rest => needle.isPrefixOf (c :: rest) || containsSub needle rest

/-- Python's substring test `needle in hay` on strings. -/
def strContains (hay needle : String) : Bool :=
  containsSub needle.data hay.data

/-- `sorted(notes_store)`: the keys of the store in ascending order. -/
def sortedKeys (store : List (Nat × Note)) : List Nat :=
  List.insertionSort (· ≤ ·) (store.map Prod.fst)

/-- `[notes_store[note_id] for note_id in sorted(notes_store)]`, as used by
`list_notes` and `search_notes`. -/
def allNotes (s : AppState) : List Note :=
  (sortedKeys s.notes_store).filterMap (fun k => s.notes_store.lookup k)

/-- `create_note` of `main.py`: stamp both timestamps with the current time,
store under `next_id`, increment `next_id`. -/
def create_note (s : AppState) (title : String) (content : String) (now : Nat) :
    Note × AppState :=
  let note : Note :=
    { id := s.next_id, title := title, content := content
      created_at := now, updated_at := now }
  (note, { notes_store := dictSet s.notes_store s.next_id note, next_id := s.next_id + 1 })

/-- The `PaginatedNotesResponse` pydantic model of `main.py`. -/
structure PaginatedNotesResponse where
  items : List Note
  count : Nat
  total : Nat
  limit : Nat
  offset : Nat
deriving DecidableEq, Repr

/-- `list_notes` of `main.py`: all notes in ascending-id order, the Python
slice `all_notes[offset : offset + limit]`, with `count`, `total`, `limit`,
`offset`. -/
def list_notes (s : AppState) (limit offset : Nat) : PaginatedNotesResponse :=
  let all := allNotes s
  let paged := (all.drop offset).take limit
  { items := paged, count := paged.length, total := all.length
    limit := limit, offset := offset }

/-- `get_note_by_id` of `main.py`. -/
def get_note_by_id (s : AppState) (note_id : Nat) : Option Note :=
  s.notes_store.lookup note_id

/-- `update_note` of `main.py`: apply only the supplied fields; set the
`changed` flag when a supplied value differs from the stored one; refresh
`updated_at` only when `changed`; rebuild and re-store the record either
way. -/
def update_note (s : AppState) (note_id : Nat)
    (title content : Option String) (now : Nat) : Option Note × AppState :=
  match s.notes_store.lookup note_id with
  | none => (none, s)
  | some note =>
    let changed := false
    let v := note
    let (v, changed) :=
      match title with
      | some t => if t != note.title then ({ v with title := t }, true) else (v, changed)
      | none => (v, changed)
    let (v, changed) :=
      match content with
      | some c => if c != note.content then ({ v with content := c }, true) else (v, changed)
      | none => (v, changed)
    let v := if changed then { v with updated_at := now } else v
    (some v, { s with notes_store := dictSet s.notes_store note_id v })

/-- `delete_note` of `main.py`. -/
def delete_note (s : AppState) (note_id : Nat) : Bool × AppState :=
  if s.notes_store.any (fun p => p.1 == note_id) then
    (true, { s with notes_store := dictDel s.notes_store note_id })
  else
    (false, s)

/-- `search_notes` of `main.py`: lowercase the query, scan all notes in
ascending-id order, keep those whose lowercased title or content contains
the query. -/
def search_notes (s : AppState) (query : String) : List Note :=
  let q := pyLower query
  (allNotes s).filter
    (fun note => strContains (pyLower note.title) q || strContains (pyLower note.content) q)

/-- An HTTP response as the handlers produce it: a success payload with its
status code, or the `{error: {code, message}}` envelope's status and code. -/
inductive HResp (α : Type) where
  | ok (status : Nat) (val : α)
  | err (status : Nat) (code : String)
deriving DecidableEq, Repr

/-- The `POST /notes` pipeline: pydantic validation of `CreateNoteRequest`
(`title` must be non-empty after stripping, else the
`RequestValidationError` handler renders 422 `validation_error`), then
`post_note` calls `create_note` with the stripped title; 201 on success. -/
def post_note (s : AppState) (title content : String) (now : Nat) :
    HResp Note × AppState :=
  if (pyStrip title).data.isEmpty then
    (.err 422 "validation_error", s)
  else
    let (n, s') := create_note s (pyStrip title) content now
    (.ok 201 n, s')

/-- The `PATCH /notes/{id}` pipeline: pydantic validation of
`UpdateNoteRequest` (a supplied title must be non-empty after stripping,
else 422 `validation_error`); then `patch_note`: 400 `invalid_request` when
neither field is supplied, otherwise `update_note` with the stripped title,
404 `note_not_found` when the id is unknown, 200 with the record
otherwise. -/
def patch_note (s : AppState) (note_id : Nat)
    (title content : Option String) (now : Nat) : HResp Note × AppState :=
  match title with
  | some t =>
    if (pyStrip t).data.isEmpty then
      (.err 422 "validation_error", s)
    else
      match update_note s note_id (some (pyStrip t)) content now with
      | (none, s') => (.err 404 "note_not_found", s')
      | (some n, s') => (.ok 200 n, s')
  | none =>
    match content with
    | none => (.err 400 "invalid_request", s)
    | some _ =>
      match update_note s note_id none content now with
      | (none, s') => (.err 404 "note_not_found", s')
      | (some n, s') => (.ok 200 n, s')

/-- The `GET /notes/{id}` pipeline (`get_note`): 200 with the record, or
404 `note_not_found`. -/
def get_note (s : AppState) (note_id : Nat) : HResp Note :=
  match get_note_by_id s note_id with
  | none => .err 404 "note_not_found"
  | some n => .ok 200 n

/-- The `DELETE /notes/{id}` pipeline (`remove_note`): 204 empty body when
`delete_note` returns true, 404 `note_not_found` otherwise. -/
def remove_note (s : AppState) (note_id : Nat) : HResp Unit × AppState :=
  let (deleted, s') := delete_note s note_id
  if deleted then (.ok 204 (), s')
  else (.err 404 "note_not_found", s')

-- Sanity checks against the behaviour of the Python code.
example :
    (create_note initState "First" "Hello" 3).1 =
      { id := 1, title := "First", content := "Hello", created_at := 3, updated_at := 3 } := by
  decide

example : pyStrip "  ab " = "ab" := by decide

example : strContains "buy milk" "milk" = true := by decide

example : strContains "read book" "milk" = false := by decide

example :
    let s := (create_note initState "A" "B" 3).2
    (update_note s 1 (some "A") none 7).1 =
      some { id := 1, title := "A", content := "B", created_at := 3, updated_at := 3 } := by
  decide

example :
    let s := (create_note initState "A" "B" 3).2
    (update_note s 1 (some "C") none 7).1 =
      some { id := 1, title := "C", content := "B", created_at := 3, updated_at := 7 } := by
  decide

/-! ### Helper lemmas about the store primitives -/

theorem lookup_isSome_eq_any (store : List (Nat × Note)) (k : Nat) :
    (store.lookup k).isSome = store.any (fun p => p.1 == k) := by
  induction store with
  | nil => rfl
  | cons p rest ih =>
    rcases p with ⟨a, b⟩
    by_cases h : k = a
    · subst h
      simp [List.lookup]
    · have h1 : (k == a) = false := by simp [h]
      have h2 : (a == k) = false := by simp [Ne.symm h]
      simp [List.lookup, h1, h2, ih]

theorem lookup_dictDel_self (store : List (Nat × Note)) (k : Nat) :
    (dictDel store k).lookup k = none := by
  induction store with
  | nil => rfl
  | cons p rest ih =>
    rcases p with ⟨a, b⟩
    by_cases h : a = k
    · have hcons : dictDel ((a, b) :: rest) k = dictDel rest k := by
        simp [dictDel, List.filter_cons, h]
      rw [hcons]; exact ih
    · have h1 : (a != k) = true := by simp [h]
      have h2 : (k == a) = false := by simp [Ne.symm h]
      have hcons : dictDel ((a, b) :: rest) k = (a, b) :: dictDel rest k := by
        simp [dictDel, List.filter_cons, h1]
      rw [hcons]
      simp [List.lookup, h2, ih]

theorem lookup_map_set (store : List (Nat × Note)) (k : Nat) (v : Note) :
    (store.map (fun p => if p.1 == k then (k, v) else p)).lookup k =
      (store.lookup k).map (fun _ => v) := by
  induction store with
  | nil => rfl
  | cons p rest ih =>
    rcases p with ⟨a, b⟩
    by_cases h : a = k
    · subst h
      rw [List.map_cons]
      rw [if_pos (by simp : (((a, b).1 == a) = true))]
      simp [List.lookup]
    · have h1 : (a == k) = false := by simp [h]
      have h2 : (k == a) = false := by simp [Ne.symm h]
      rw [List.map_cons]
      rw [if_neg (by simp [h1] : ¬(((a, b).1 == k) = true))]
      simp only [List.lookup, h2]
      exact ih

theorem lookup_append_single (store : List (Nat × Note)) (k : Nat) (v : Note)
    (h : store.any (fun p => p.1 == k) = false) :
    (store ++ [(k, v)]).lookup k = some v := by
  induction store with
  | nil => simp [List.lookup]
  | cons p rest ih =>
    rcases p with ⟨a, b⟩
    simp only [List.any_cons, Bool.or_eq_false_iff] at h
    have h2 : (k == a) = false := by
      rcases h with ⟨h1, _⟩
      simp only [beq_eq_false_iff_ne] at h1 ⊢
      exact Ne.symm h1
    simp [List.lookup, h2, ih h.2]

theorem lookup_dictSet_self (store : List (Nat × Note)) (k : Nat) (v : Note) :
    (dictSet store k v).lookup k = some v := by
  cases hany : store.any (fun p => p.1 == k) with
  | true =>
    have hsome : (store.lookup k).isSome = true := by
      rw [lookup_isSome_eq_any]; exact hany
    rcases Option.isSome_iff_exists.mp hsome with ⟨w, hw⟩
    simp only [dictSet]
    rw [if_pos hany, lookup_map_set, hw]
    rfl
  | false =>
    simp only [dictSet]
    rw [if_neg (by simp [hany]), lookup_append_single store k v hany]

/-! ### C1: `updated_at` on update -/

/-- C1 counterexample: a successful update that supplies a title equal to the
stored title (and no content) returns the record with the old `updated_at`
(3), not the current time (7): `updated_at` is not refreshed on a no-op
update. -/
theorem update_noop_keeps_updated_at :
    (update_note ⟨[(1, ⟨1, "A", "B", 3, 3⟩)], 2⟩ 1 (some "A") none 7).1 =
      some ⟨1, "A", "B", 3, 3⟩ ∧ (3 : Nat) ≠ 7 := by
  decide

/-- C1 (amended): for every existing note, a successful update returns (and
stores) the full updated record; `updated_at` is set to the current time
exactly when at least one supplied field differs from the stored value,
and otherwise the record — `updated_at` included — is returned unchanged. -/
theorem update_note_refreshes_only_on_change (s : AppState) (note_id : Nat) (n : Note)
    (title content : Option String) (now : Nat)
    (h : s.notes_store.lookup note_id = some n) :
    ∃ r : Note,
      (r = if title.getD n.title ≠ n.title ∨ content.getD n.content ≠ n.content then
            { id := n.id, title := title.getD n.title, content := content.getD n.content,
              created_at := n.created_at, updated_at := now }
          else n) ∧
      (update_note s note_id title content now).1 = some r ∧
      (update_note s note_id title content now).2.notes_store.lookup note_id = some r := by
  refine ⟨_, rfl, ?_, ?_⟩ <;>
    rcases title with _ | t <;> rcases content with _ | c
  · simp [update_note, h]
  · by_cases hc : c = n.content
    · subst hc; simp [update_note, h]
    · simp [update_note, h, hc]
  · by_cases ht : t = n.title
    · subst ht; simp [update_note, h]
    · simp [update_note, h, ht]
  · by_cases ht : t = n.title <;> by_cases hc : c = n.content
    · subst ht; subst hc; simp [update_note, h]
    · subst ht; simp [update_note, h, hc]
    · subst hc; simp [update_note, h, ht]
    · simp [update_note, h, ht, hc]
  · simp [update_note, h, lookup_dictSet_self]
  · by_cases hc : c = n.content
    · subst hc; simp [update_note, h, lookup_dictSet_self]
    · simp [update_note, h, hc, lookup_dictSet_self]
  · by_cases ht : t = n.title
    · subst ht; simp [update_note, h, lookup_dictSet_self]
    · simp [update_note, h, ht, lookup_dictSet_self]
  · by_cases ht : t = n.title <;> by_cases hc : c = n.content
    · subst ht; subst hc; simp [update_note, h, lookup_dictSet_self]
    · subst ht; simp [update_note, h, hc, lookup_dictSet_self]
    · subst hc; simp [update_note, h, ht, lookup_dictSet_self]
    · simp [update_note, h, ht, hc, lookup_dictSet_self]

/-- C1 witness: the amended theorem applied to a concrete store (one note,
timestamps 3) and a concrete update changing the title at time 7. -/
theorem update_note_refreshes_only_on_change_witness :
    (update_note ⟨[(1, ⟨1, "A", "B", 3, 3⟩)], 2⟩ 1 (some "C") none 7).1 =
      some ⟨1, "C", "B", 3, 7⟩ := by
  obtain ⟨r, hr, h1, _⟩ :=
    update_note_refreshes_only_on_change ⟨[(1, ⟨1, "A", "B", 3, 3⟩)], 2⟩ 1
      ⟨1, "A", "B", 3, 3⟩ (some "C") none 7 (by decide)
  rw [h1, hr]
  decide

/-! ### C2: blank title on patch -/

/-- C2: for every stored note and every patch whose supplied title is empty
or whitespace-only after trimming, the pipeline answers 422
`validation_error` and returns the state unchanged — no field of any stored
record is mutated. -/
theorem patch_blank_title_422_unchanged (s : AppState) (note_id : Nat) (n : Note)
    (t : String) (content : Option String) (now : Nat)
    (hn : s.notes_store.lookup note_id = some n)
    (ht : (pyStrip t).data = []) :
    patch_note s note_id (some t) content now = (.err 422 "validation_error", s) := by
  simp [patch_note, ht]

/-- C2 witness: patching the single stored note with title `"   "` at time 7
yields 422 `validation_error` and the identical state. -/
theorem patch_blank_title_422_unchanged_witness :
    patch_note ⟨[(1, ⟨1, "A", "B", 3, 3⟩)], 2⟩ 1 (some "   ") none 7 =
      (.err 422 "validation_error", ⟨[(1, ⟨1, "A", "B", 3, 3⟩)], 2⟩) :=
  patch_blank_title_422_unchanged ⟨[(1, ⟨1, "A", "B", 3, 3⟩)], 2⟩ 1
    ⟨1, "A", "B", 3, 3⟩ "   " none 7 (by decide) (by decide)

/-! ### C7: delete semantics -/

/-- C7: deleting an existing note answers 204 and `delete_note` returns
true; a subsequent get of that id answers 404 `note_not_found`; a second
delete of the same id answers 404 (`delete_note` returns false). -/
theorem delete_then_get_then_delete (s : AppState) (note_id : Nat) (n : Note)
    (h : get_note_by_id s note_id = some n) :
    (delete_note s note_id).1 = true ∧
    (remove_note s note_id).1 = .ok 204 () ∧
    get_note (remove_note s note_id).2 note_id = .err 404 "note_not_found" ∧
    (delete_note (remove_note s note_id).2 note_id).1 = false ∧
    (remove_note (remove_note s note_id).2 note_id).1 = .err 404 "note_not_found" := by
  rw [get_note_by_id] at h
  have hany : s.notes_store.any (fun p => p.1 == note_id) = true := by
    have hiso := lookup_isSome_eq_any s.notes_store note_id
    rw [h] at hiso
    exact hiso.symm
  have hdel : delete_note s note_id =
      (true, { s with notes_store := dictDel s.notes_store note_id }) := by
    simp [delete_note, hany]
  have hlook : (dictDel s.notes_store note_id).lookup note_id = none :=
    lookup_dictDel_self _ _
  have hany2 : (dictDel s.notes_store note_id).any (fun p => p.1 == note_id) = false := by
    have hiso := lookup_isSome_eq_any (dictDel s.notes_store note_id) note_id
    rw [hlook] at hiso
    exact hiso.symm
  have hdel2 : delete_note { s with notes_store := dictDel s.notes_store note_id } note_id =
      (false, { s with notes_store := dictDel s.notes_store note_id }) := by
    simp [delete_note, hany2]
  refine ⟨by rw [hdel], ?_, ?_, ?_, ?_⟩ <;>
    simp [remove_note, hdel, hdel2, get_note, get_note_by_id, hlook]

/-- C7 witness: the delete/get/delete sequence on a concrete one-note
store. -/
theorem delete_then_get_then_delete_witness :
    (delete_note ⟨[(1, ⟨1, "A", "B", 3, 3⟩)], 2⟩ 1).1 = true ∧
    (remove_note ⟨[(1, ⟨1, "A", "B", 3, 3⟩)], 2⟩ 1).1 = .ok 204 () ∧
    get_note (remove_note ⟨[(1, ⟨1, "A", "B", 3, 3⟩)], 2⟩ 1).2 1 =
      .err 404 "note_not_found" ∧
    (delete_note (remove_note ⟨[(1, ⟨1, "A", "B", 3, 3⟩)], 2⟩ 1).2 1).1 = false ∧
    (remove_note (remove_note ⟨[(1, ⟨1, "A", "B", 3, 3⟩)], 2⟩ 1).2 1).1 =
      .err 404 "note_not_found" :=
  delete_then_get_then_delete ⟨[(1, ⟨1, "A", "B", 3, 3⟩)], 2⟩ 1
    ⟨1, "A", "B", 3, 3⟩ (by decide)

/-! ### C9: route precedence for `/notes/search` -/

/-- A path-pattern segment of a registered route: a literal segment or a
path parameter such as `{note_id}`. -/
inductive Seg where
  | lit (s : String)
  | param
deriving DecidableEq, Repr

/-- Whether one pattern segment matches one path segment: a literal matches
itself, a parameter matches any segment. -/
def segMatches : Seg → String → Bool
  | .lit s, x => s == x
  | .param, _ => true

/-- Whether a route pattern matches a request path, segmentwise. -/
def pathMatches (pat : List Seg) (path : List String) : Bool :=
  pat.length == path.length && (pat.zip path).all (fun q => segMatches q.1 q.2)

/-- The route table of `main.py` in registration order: method, handler
name, path pattern.  `POST /notes`, `GET /notes`, `GET /notes/search`,
`GET /notes/{note_id}`, `PATCH /notes/{note_id}`, `DELETE /notes/{note_id}`. -/
def routeTable : List (String × String × List Seg) :=
  [("POST", "post_note", [.lit "notes"]),
   ("GET", "get_notes", [.lit "notes"]),
   ("GET", "get_notes_search", [.lit "notes", .lit "search"]),
   ("GET", "get_note", [.lit "notes", .param]),
   ("PATCH", "patch_note", [.lit "notes", .param]),
   ("DELETE", "remove_note", [.lit "notes", .param])]

/-- Modelled from the spec: the request router is FastAPI/starlette code
that is not part of this repository; per the spec's route-precedence rule,
a request is dispatched to the first registered route whose method and path
pattern match.  Returns the matched handler's name. -/
def dispatch (method : String) (path : List String) : Option String :=
  (routeTable.find? (fun r => r.1 == method && pathMatches r.2.2 path)).map
    (fun r => r.2.1)

/-- C9: a request for the path `/notes/search` is dispatched to the search
handler when its method is GET, and for no method is it ever dispatched to
the by-id handler `get_note`: the literal route takes precedence over
`/notes/{id}`. -/
theorem search_route_precedence :
    dispatch "GET" ["notes", "search"] = some "get_notes_search" ∧
    ∀ method : String, dispatch method ["notes", "search"] ≠ some "get_note" := by
  refine ⟨by decide, ?_⟩
  intro m
  by_cases hg : m = "GET"
  · subst hg; decide
  · have h1 : (("GET" : String) == m) = false := by
      simp [Ne.symm hg]
    simp only [dispatch, routeTable, List.find?, h1]
    by_cases hp : m = "POST"
    · subst hp; decide
    · have h2 : (("POST" : String) == m) = false := by
        simp [Ne.symm hp]
      simp only [h2]
      by_cases hpa : m = "PATCH"
      · subst hpa; decide
      · have h3 : (("PATCH" : String) == m) = false := by
          simp [Ne.symm hpa]
        simp only [h3]
        by_cases hd : m = "DELETE"
        · subst hd; decide
        · have h4 : (("DELETE" : String) == m) = false := by
            simp [Ne.symm hd]
          simp [h4]

/-! ### Lemmas about `allNotes` -/

theorem mem_of_lookup (store : List (Nat × Note)) (k : Nat) (v : Note)
    (h : store.lookup k = some v) : (k, v) ∈ store := by
  induction store with
  | nil => simp [List.lookup] at h
  | cons p rest ih =>
    rcases p with ⟨a, b⟩
    by_cases hk : k = a
    · subst hk
      simp [List.lookup] at h
      subst h
      exact List.mem_cons_self _ _
    · have h2 : (k == a) = false := by simp [hk]
      simp only [List.lookup, h2] at h
      exact List.mem_cons_of_mem _ (ih h)

theorem filterMap_lookup_keys (store : List (Nat × Note))
    (h : (store.map Prod.fst).Nodup) :
    (store.map Prod.fst).filterMap (fun k => store.lookup k) = store.map Prod.snd := by
  induction store with
  | nil => rfl
  | cons p rest ih =>
    rcases p with ⟨a, b⟩
    simp only [List.map_cons, List.nodup_cons] at h
    rcases h with ⟨hnotmem, hnd⟩
    have hfa : List.lookup a ((a, b) :: rest) = some b := by
      simp [List.lookup]
    rw [List.map_cons, List.filterMap_cons, hfa]
    have hcongr :
        (rest.map Prod.fst).filterMap (fun k => List.lookup k ((a, b) :: rest)) =
          (rest.map Prod.fst).filterMap (fun k => rest.lookup k) := by
      apply List.filterMap_congr
      intro k hk
      have hka : (k == a) = false := by
        simp only [beq_eq_false_iff_ne]
        intro hkeq
        exact hnotmem (hkeq ▸ hk)
      simp [List.lookup, hka]
    rw [hcongr, ih hnd]
    rfl

theorem allNotes_perm (s : AppState)
    (h : (s.notes_store.map Prod.fst).Nodup) :
    (allNotes s).Perm (s.notes_store.map Prod.snd) := by
  have hperm : (sortedKeys s.notes_store).Perm (s.notes_store.map Prod.fst) :=
    List.perm_insertionSort _ _
  calc (allNotes s).Perm ((s.notes_store.map Prod.fst).filterMap
        (fun k => s.notes_store.lookup k)) := hperm.filterMap _
    _ = _ := by rw [filterMap_lookup_keys s.notes_store h]

theorem allNotes_sorted (s : AppState)
    (hkeys : (s.notes_store.map Prod.fst).Nodup)
    (hid : ∀ p ∈ s.notes_store, p.2.id = p.1) :
    (allNotes s).Pairwise (fun x y => x.id < y.id) := by
  have hs : (sortedKeys s.notes_store).Pairwise (· ≤ ·) :=
    List.sorted_insertionSort _ _
  have hnd : (sortedKeys s.notes_store).Nodup :=
    (List.perm_insertionSort _ _).nodup_iff.mpr hkeys
  have hlt : (sortedKeys s.notes_store).Pairwise (· < ·) :=
    (hs.and hnd).imp (fun h => lt_of_le_of_ne h.1 h.2)
  refine List.Pairwise.filterMap _ ?_ hlt
  intro a b hab x hx y hy
  simp only [Option.mem_def] at hx hy
  have hxm := mem_of_lookup _ _ _ hx
  have hym := mem_of_lookup _ _ _ hy
  have hxa : x.id = a := hid _ hxm
  have hyb : y.id = b := hid _ hym
  rw [hxa, hyb]
  exact hab

/-! ### C4: pagination -/

/-- C4: for every well-formed store state (unique keys, each record's id
being its key) and every `limit` in `[1,100]` and `offset`, `list_notes`
returns the stored notes in strictly ascending id order restricted to the
window `[offset, offset + limit)`; `total` is the number of all stored
notes, `count` the number of returned items, and `limit`/`offset` are
echoed back. -/
theorem list_notes_spec (s : AppState) (limit offset : Nat)
    (hkeys : (s.notes_store.map Prod.fst).Nodup)
    (hid : ∀ p ∈ s.notes_store, p.2.id = p.1)
    (hlim1 : 1 ≤ limit) (hlim2 : limit ≤ 100) :
    (allNotes s).Perm (s.notes_store.map Prod.snd) ∧
    (allNotes s).Pairwise (fun x y => x.id < y.id) ∧
    (list_notes s limit offset).items = ((allNotes s).drop offset).take limit ∧
    (list_notes s limit offset).items.Pairwise (fun x y => x.id < y.id) ∧
    (list_notes s limit offset).total = s.notes_store.length ∧
    (list_notes s limit offset).count = (list_notes s limit offset).items.length ∧
    (list_notes s limit offset).limit = limit ∧
    (list_notes s limit offset).offset = offset := by
  have hperm := allNotes_perm s hkeys
  have hsorted := allNotes_sorted s hkeys hid
  refine ⟨hperm, hsorted, rfl, ?_, ?_, rfl, rfl, rfl⟩
  · have hsub : (((allNotes s).drop offset).take limit).Sublist (allNotes s) :=
      ((allNotes s).drop offset).take_sublist limit |>.trans ((allNotes s).drop_sublist offset)
    exact List.Pairwise.sublist hsub hsorted
  · have hlen := hperm.length_eq
    simpa [list_notes, List.length_map] using hlen

/-- C4 witness: a concrete three-note store, `limit = 1`, `offset = 1`:
the window holds exactly the middle note and `total` is 3. -/
theorem list_notes_spec_witness :
    (list_notes ⟨[(1, ⟨1, "A", "", 3, 3⟩), (2, ⟨2, "B", "", 4, 4⟩),
        (3, ⟨3, "C", "", 5, 5⟩)], 4⟩ 1 1).total = 3 ∧
    (list_notes ⟨[(1, ⟨1, "A", "", 3, 3⟩), (2, ⟨2, "B", "", 4, 4⟩),
        (3, ⟨3, "C", "", 5, 5⟩)], 4⟩ 1 1).items =
      ((allNotes ⟨[(1, ⟨1, "A", "", 3, 3⟩), (2, ⟨2, "B", "", 4, 4⟩),
        (3, ⟨3, "C", "", 5, 5⟩)], 4⟩).drop 1).take 1 := by
  obtain ⟨_, _, hitems, _, htotal, _, _, _⟩ :=
    list_notes_spec ⟨[(1, ⟨1, "A", "", 3, 3⟩), (2, ⟨2, "B", "", 4, 4⟩),
        (3, ⟨3, "C", "", 5, 5⟩)], 4⟩ 1 1 (by decide) (by decide) (by decide) (by decide)
  exact ⟨by rw [htotal]; rfl, hitems⟩

/-! ### C5: search -/

theorem containsSub_iff (needle hay : List Char) :
    containsSub needle hay = true ↔ ∃ pre post, hay = pre ++ needle ++ post := by
  induction hay with
  | nil =>
    simp only [containsSub, List.isEmpty_iff]
    constructor
    · intro h
      exact ⟨[], [], by simp [h]⟩
    · rintro ⟨pre, post, hp⟩
      rcases List.append_eq_nil.mp (List.append_eq_nil.mp hp.symm).1 with ⟨-, h2⟩
      exact h2
  | cons c rest ih =>
    simp only [containsSub, Bool.or_eq_true, ih]
    constructor
    · rintro (hpre | ⟨pre, post, hp⟩)
      · rcases List.isPrefixOf_iff_prefix.mp hpre with ⟨t, ht⟩
        exact ⟨[], t, by simp [ht]⟩
      · exact ⟨c :: pre, post, by simp [hp]⟩
    · rintro ⟨pre, post, hp⟩
      cases pre with
      | nil =>
        left
        exact List.isPrefixOf_iff_prefix.mpr ⟨post, by simpa using hp.symm⟩
      | cons x xs =>
        right
        rcases List.cons_eq_cons.mp (by simpa using hp) with ⟨-, htail⟩
        exact ⟨xs, post, by rw [htail, List.append_assoc]⟩

/-- C5: for every well-formed store state and non-empty query, `search_notes`
returns exactly the stored notes whose lowercased title or content contains
the lowercased query as a substring, as a subsequence of the full
ascending-id listing (hence in ascending-id order with no reordering or
ranking). -/
theorem search_notes_spec (s : AppState) (q : String)
    (hkeys : (s.notes_store.map Prod.fst).Nodup)
    (hid : ∀ p ∈ s.notes_store, p.2.id = p.1)
    (hq : q ≠ "") :
    (∀ n : Note, n ∈ search_notes s q ↔
        n ∈ s.notes_store.map Prod.snd ∧
        ((∃ pre post, (pyLower n.title).data = pre ++ (pyLower q).data ++ post) ∨
         (∃ pre post, (pyLower n.content).data = pre ++ (pyLower q).data ++ post))) ∧
    (search_notes s q).Sublist (allNotes s) ∧
    (search_notes s q).Pairwise (fun x y => x.id < y.id) := by
  have hperm := allNotes_perm s hkeys
  have hsorted := allNotes_sorted s hkeys hid
  have hsub : (search_notes s q).Sublist (allNotes s) := List.filter_sublist _
  refine ⟨?_, hsub, List.Pairwise.sublist hsub hsorted⟩
  intro n
  rw [search_notes]
  simp only [List.mem_filter, Bool.or_eq_true, strContains, containsSub_iff,
    hperm.mem_iff]

/-- C5 witness: searching `"milk"` over `{"Buy milk", "2 liters"}` and
`{"Read book", "chapter one"}` returns the first note (case-insensitive
substring of its title). -/
theorem search_notes_spec_witness :
    (⟨1, "Buy milk", "2 liters", 3, 3⟩ : Note) ∈
      search_notes ⟨[(1, ⟨1, "Buy milk", "2 liters", 3, 3⟩),
        (2, ⟨2, "Read book", "chapter one", 4, 4⟩)], 3⟩ "milk" := by
  obtain ⟨hmem, -, -⟩ :=
    search_notes_spec ⟨[(1, ⟨1, "Buy milk", "2 liters", 3, 3⟩),
        (2, ⟨2, "Read book", "chapter one", 4, 4⟩)], 3⟩ "milk"
      (by decide) (by decide) (by decide)
  exact (hmem _).mpr ⟨by decide, Or.inl ⟨['b', 'u', 'y', ' '], [], by decide⟩⟩

/-! ### C8: patch supplying only content -/

/-- C8 counterexample: patching the stored note with only a content field
whose value equals the stored content succeeds (200) but does not advance
`updated_at`: it stays 3 although the current time is 7. -/
theorem patch_content_noop_counterexample :
    (patch_note ⟨[(1, ⟨1, "A", "Hello", 3, 3⟩)], 2⟩ 1 none (some "Hello") 7).1 =
      .ok 200 ⟨1, "A", "Hello", 3, 3⟩ ∧ (3 : Nat) ≠ 7 := by
  decide

/-- C8 (amended): for every existing note, a patch supplying only content
leaves `title`, `created_at` and `id` unchanged and returns (and stores)
the record with `updated_at` set to the current time when the supplied
content differs from the stored content; when it is equal, the record —
`updated_at` included — is unchanged. -/
theorem patch_content_only (s : AppState) (note_id : Nat) (n : Note) (c : String)
    (now : Nat) (h : s.notes_store.lookup note_id = some n) :
    ∃ r : Note,
      (r = if c ≠ n.content then
            { id := n.id, title := n.title, content := c,
              created_at := n.created_at, updated_at := now }
          else n) ∧
      (patch_note s note_id none (some c) now).1 = .ok 200 r ∧
      (patch_note s note_id none (some c) now).2.notes_store.lookup note_id = some r := by
  refine ⟨_, rfl, ?_, ?_⟩ <;> by_cases hc : c = n.content
  · subst hc; simp [patch_note, update_note, h]
  · simp [patch_note, update_note, h, hc]
  · subst hc; simp [patch_note, update_note, h, lookup_dictSet_self]
  · simp [patch_note, update_note, h, hc, lookup_dictSet_self]

/-- C8 witness: patching the concrete note (content `"Old"`, timestamps 3)
with only `content = "Updated"` at time 7 returns the record with the old
title and `updated_at = 7`. -/
theorem patch_content_only_witness :
    (patch_note ⟨[(1, ⟨1, "A", "Old", 3, 3⟩)], 2⟩ 1 none (some "Updated") 7).1 =
      .ok 200 ⟨1, "A", "Updated", 3, 7⟩ := by
  obtain ⟨r, hr, h1, _⟩ :=
    patch_content_only ⟨[(1, ⟨1, "A", "Old", 3, 3⟩)], 2⟩ 1
      ⟨1, "A", "Old", 3, 3⟩ "Updated" 7 (by decide)
  rw [h1, hr]
  decide

/-! ### Store-level operation traces -/

/-- A store-level mutating operation, with the arguments the handlers pass. -/
inductive Op where
  | create (title content : String)
  | update (note_id : Nat) (title content : Option String)
  | delete (note_id : Nat)
deriving DecidableEq, Repr

/-- Apply one store operation at clock reading `now`. -/
def applyOp (s : AppState) : Op → Nat → AppState
  | .create t c, now => (create_note s t c now).2
  | .update i t c, now => (update_note s i t c now).2
  | .delete i, _ => (delete_note s i).2

/-- Run a trace of timed store operations. -/
def runOps (s : AppState) : List (Op × Nat) → AppState
  | [] => s
  | (op, t) :: rest => runOps (applyOp s op t) rest

/-- The clock readings of a trace are non-decreasing, starting at `t0`. -/
def TimesMono : Nat → List (Op × Nat) → Prop
  | _, [] => True
  | t0, (_, t) :: rest => t0 ≤ t ∧ TimesMono t rest

theorem mem_dictSet {store : List (Nat × Note)} {k : Nat} {v : Note} {p : Nat × Note}
    (h : p ∈ dictSet store k v) : p = (k, v) ∨ p ∈ store := by
  unfold dictSet at h
  split at h
  · rcases List.mem_map.mp h with ⟨q, hq, hmap⟩
    by_cases hqk : q.1 = k
    · left; rw [← hmap, if_pos (by simp [hqk])]
    · right; rw [← hmap, if_neg (by simp [hqk])]; exact hq
  · rcases List.mem_append.mp h with hmem | hmem
    · right; exact hmem
    · left; simpa using hmem

theorem mem_dictDel {store : List (Nat × Note)} {k : Nat} {p : Nat × Note}
    (h : p ∈ dictDel store k) : p ∈ store :=
  (List.mem_filter.mp h).1

/-- Full case characterization of `update_note`: unknown id leaves the state
untouched; for a known id it stores one record `v` whose `created_at` is the
old one, whose `updated_at` is the old one or the current time, and whose
title is the stored one when no title is supplied and exactly the supplied
one otherwise. -/
theorem update_note_state (s : AppState) (note_id : Nat)
    (title content : Option String) (now : Nat) :
    (s.notes_store.lookup note_id = none ∧
      update_note s note_id title content now = (none, s)) ∨
    ∃ n v, s.notes_store.lookup note_id = some n ∧
      v.created_at = n.created_at ∧
      (v.updated_at = n.updated_at ∨ v.updated_at = now) ∧
      (title = none → v.title = n.title) ∧
      (∀ tt, title = some tt → v.title = tt) ∧
      update_note s note_id title content now =
        (some v, { s with notes_store := dictSet s.notes_store note_id v }) := by
  cases hl : s.notes_store.lookup note_id with
  | none => exact Or.inl ⟨rfl, by simp [update_note, hl]⟩
  | some n =>
    right
    rcases title with _ | t <;> rcases content with _ | c
    · exact ⟨n, n, rfl, rfl, Or.inl rfl, fun _ => rfl, fun tt h => (by cases h),
        by simp [update_note, hl]⟩
    · by_cases hc : c = n.content
      · subst hc
        exact ⟨n, n, rfl, rfl, Or.inl rfl, fun _ => rfl, fun tt h => (by cases h),
          by simp [update_note, hl]⟩
      · exact ⟨n, { n with content := c, updated_at := now }, rfl, rfl, Or.inr rfl,
          fun _ => rfl, fun tt h => (by cases h), by simp [update_note, hl, hc]⟩
    · by_cases ht : t = n.title
      · subst ht
        exact ⟨n, n, rfl, rfl, Or.inl rfl, fun h => (by cases h),
          fun tt h => (by cases h; rfl), by simp [update_note, hl]⟩
      · exact ⟨n, { n with title := t, updated_at := now }, rfl, rfl, Or.inr rfl,
          fun h => (by cases h), fun tt h => (by cases h; rfl),
          by simp [update_note, hl, ht]⟩
    · by_cases ht : t = n.title <;> by_cases hc : c = n.content
      · subst ht; subst hc
        exact ⟨n, n, rfl, rfl, Or.inl rfl, fun h => (by cases h),
          fun tt h => (by cases h; rfl), by simp [update_note, hl]⟩
      · subst ht
        exact ⟨n, { n with content := c, updated_at := now }, rfl, rfl, Or.inr rfl,
          fun h => (by cases h), fun tt h => (by cases h; rfl),
          by simp [update_note, hl, hc]⟩
      · subst hc
        exact ⟨n, { n with title := t, updated_at := now }, rfl, rfl, Or.inr rfl,
          fun h => (by cases h), fun tt h => (by cases h; rfl),
          by simp [update_note, hl, ht]⟩
      · exact ⟨n, { n with title := t, content := c, updated_at := now }, rfl, rfl,
          Or.inr rfl, fun h => (by cases h), fun tt h => (by cases h; rfl),
          by simp [update_note, hl, ht, hc]⟩

/-- `delete_note` either leaves the state untouched or removes the key. -/
theorem delete_note_state (s : AppState) (i : Nat) :
    (delete_note s i).2 = s ∨
    (delete_note s i).2 = { s with notes_store := dictDel s.notes_store i } := by
  unfold delete_note
  split
  · right; rfl
  · left; rfl

/-! ### C3: `updated_at >= created_at` invariant -/

/-- Every stored record has `created_at <= updated_at`, and all its
timestamps are bounded by the clock reading `t0`. -/
def TimeInv (s : AppState) (t0 : Nat) : Prop :=
  ∀ p ∈ s.notes_store, p.2.created_at ≤ p.2.updated_at ∧ p.2.updated_at ≤ t0

theorem timeInv_applyOp {s : AppState} {t0 : Nat} (inv : TimeInv s t0)
    (op : Op) {t : Nat} (ht : t0 ≤ t) : TimeInv (applyOp s op t) t := by
  cases op with
  | create ti c =>
    intro p hp
    simp only [applyOp, create_note] at hp
    rcases mem_dictSet hp with rfl | hmem
    · exact ⟨le_refl _, le_refl _⟩
    · exact ⟨(inv p hmem).1, le_trans (inv p hmem).2 ht⟩
  | update i ti c =>
    rcases update_note_state s i ti c t with ⟨-, heq⟩ | ⟨n, v, hl, hcr, hup, -, -, heq⟩
    · intro p hp
      simp only [applyOp, heq] at hp
      exact ⟨(inv p hp).1, le_trans (inv p hp).2 ht⟩
    · intro p hp
      simp only [applyOp, heq] at hp
      rcases mem_dictSet hp with rfl | hmem
      · have hn := inv _ (mem_of_lookup _ _ _ hl)
        rcases hup with hup | hup
        · exact ⟨hcr ▸ hup ▸ hn.1, hup ▸ le_trans hn.2 ht⟩
        · exact ⟨hcr ▸ hup ▸ le_trans hn.1 (le_trans hn.2 ht), hup ▸ le_refl t⟩
      · exact ⟨(inv p hmem).1, le_trans (inv p hmem).2 ht⟩
  | delete i =>
    rcases delete_note_state s i with heq | heq <;> intro p hp
    · simp only [applyOp, heq] at hp
      exact ⟨(inv p hp).1, le_trans (inv p hp).2 ht⟩
    · simp only [applyOp, heq] at hp
      have hmem := mem_dictDel hp
      exact ⟨(inv p hmem).1, le_trans (inv p hmem).2 ht⟩

theorem timeInv_runOps {s : AppState} {t0 : Nat} (inv : TimeInv s t0)
    {ops : List (Op × Nat)} (hm : TimesMono t0 ops) :
    ∀ p ∈ (runOps s ops).notes_store, p.2.created_at ≤ p.2.updated_at := by
  induction ops generalizing s t0 with
  | nil => exact fun p hp => (inv p hp).1
  | cons pr rest ih =>
    rcases pr with ⟨op, t⟩
    rcases hm with ⟨hle, hm2⟩
    exact ih (timeInv_applyOp inv op hle) hm2

/-- C3: after any trace of create/update/delete operations from the initial
state, run under a monotone non-decreasing clock, every stored note
satisfies `created_at <= updated_at`. -/
theorem updated_at_ge_created_at (ops : List (Op × Nat)) (hm : TimesMono 0 ops) :
    ∀ p ∈ (runOps initState ops).notes_store,
      p.2.created_at ≤ p.2.updated_at :=
  timeInv_runOps (fun p hp => by simp [initState] at hp) hm

/-- C3 witness: a concrete trace — create at time 3, no-op update at 5,
content update at 7, second create at 7 — keeps the invariant. -/
theorem updated_at_ge_created_at_witness :
    TimesMono 0 [(Op.create "A" "B", 3), (Op.update 1 (some "A") none, 5),
      (Op.update 1 none (some "C"), 7), (Op.create "D" "", 7)] ∧
    ∀ p ∈ (runOps initState [(Op.create "A" "B", 3), (Op.update 1 (some "A") none, 5),
      (Op.update 1 none (some "C"), 7), (Op.create "D" "", 7)]).notes_store,
      p.2.created_at ≤ p.2.updated_at :=
  ⟨by simp [TimesMono],
   updated_at_ge_created_at _ (by simp [TimesMono])⟩

/-! ### C6: id assignment -/

/-- The ids assigned by the creates of a trace, in order of assignment. -/
def createdIds (s : AppState) : List (Op × Nat) → List Nat
  | [] => []
  | (op, now) :: rest =>
    match op with
    | Op.create _ _ => s.next_id :: createdIds (applyOp s op now) rest
    | Op.update _ _ _ => createdIds (applyOp s op now) rest
    | Op.delete _ => createdIds (applyOp s op now) rest

theorem next_id_applyOp (s : AppState) (op : Op) (t : Nat) :
    s.next_id ≤ (applyOp s op t).next_id := by
  cases op with
  | create ti c => exact Nat.le_succ _
  | update i ti c =>
    rcases update_note_state s i ti c t with ⟨-, heq⟩ | ⟨n, v, -, -, -, -, -, heq⟩ <;>
      simp [applyOp, heq]
  | delete i =>
    rcases delete_note_state s i with heq | heq <;> simp [applyOp, heq]

theorem createdIds_lower_bound (ops : List (Op × Nat)) :
    ∀ s : AppState, ∀ x ∈ createdIds s ops, s.next_id ≤ x := by
  induction ops with
  | nil => intro s x hx; simp [createdIds] at hx
  | cons pr rest ih =>
    rcases pr with ⟨op, t⟩
    intro s x hx
    cases op with
    | create ti c =>
      simp only [createdIds] at hx
      rcases List.mem_cons.mp hx with rfl | hx2
      · exact le_refl _
      · exact le_trans (next_id_applyOp s _ t) (ih _ x hx2)
    | update i ti c =>
      simp only [createdIds] at hx
      exact le_trans (next_id_applyOp s _ t) (ih _ x hx)
    | delete i =>
      simp only [createdIds] at hx
      exact le_trans (next_id_applyOp s _ t) (ih _ x hx)

theorem createdIds_pairwise (ops : List (Op × Nat)) :
    ∀ s : AppState, (createdIds s ops).Pairwise (· < ·) := by
  induction ops with
  | nil => intro s; simp [createdIds]
  | cons pr rest ih =>
    rcases pr with ⟨op, t⟩
    intro s
    cases op with
    | create ti c =>
      simp only [createdIds]
      refine List.Pairwise.cons ?_ (ih _)
      intro x hx
      have h1 := createdIds_lower_bound rest (applyOp s (Op.create ti c) t) x hx
      have h2 : s.next_id < (applyOp s (Op.create ti c) t).next_id := by
        simp [applyOp, create_note]
      exact lt_of_lt_of_le h2 h1
    | update i ti c =>
      simp only [createdIds]
      exact ih _
    | delete i =>
      simp only [createdIds]
      exact ih _

/-- All dictionary keys are below `next_id` and pairwise distinct. -/
def KeysInv (s : AppState) : Prop :=
  (s.notes_store.map Prod.fst).Nodup ∧
  ∀ k ∈ s.notes_store.map Prod.fst, k < s.next_id

theorem keys_map_set (store : List (Nat × Note)) (k : Nat) (v : Note) :
    (store.map (fun p => if p.1 == k then (k, v) else p)).map Prod.fst =
      store.map Prod.fst := by
  rw [List.map_map]
  apply List.map_congr_left
  intro p hp
  by_cases h : p.1 = k
  · simp [h]
  · simp [h]

theorem keysInv_applyOp {s : AppState} (inv : KeysInv s) (op : Op) (t : Nat) :
    KeysInv (applyOp s op t) := by
  obtain ⟨hnd, hbound⟩ := inv
  cases op with
  | create ti c =>
    have hany : s.notes_store.any (fun p => p.1 == s.next_id) = false := by
      by_contra hc
      rw [Bool.not_eq_false, ← lookup_isSome_eq_any] at hc
      rcases Option.isSome_iff_exists.mp hc with ⟨w, hw⟩
      have hmem := mem_of_lookup _ _ _ hw
      exact lt_irrefl _ (hbound s.next_id (List.mem_map.mpr ⟨_, hmem, rfl⟩))
    constructor
    · simp only [applyOp, create_note, dictSet]
      rw [if_neg (by simp [hany])]
      rw [List.map_append]
      refine List.Nodup.append hnd (List.nodup_singleton _) ?_
      intro a ha hb
      simp only [List.map_cons, List.map_nil, List.mem_singleton] at hb
      subst hb
      exact lt_irrefl _ (hbound _ ha)
    · intro k hk
      simp only [applyOp, create_note, dictSet] at hk
      rw [if_neg (by simp [hany]), List.map_append] at hk
      rcases List.mem_append.mp hk with hk | hk
      · exact lt_trans (hbound k hk) (Nat.lt_succ_self _)
      · simp only [List.map_cons, List.map_nil, List.mem_singleton] at hk
        subst hk
        exact Nat.lt_succ_self _
  | update i ti c =>
    rcases update_note_state s i ti c t with ⟨-, heq⟩ | ⟨n, v, hl, -, -, -, -, heq⟩
    · simp only [applyOp, heq]
      exact ⟨hnd, hbound⟩
    · have hany : s.notes_store.any (fun p => p.1 == i) = true := by
        rw [← lookup_isSome_eq_any, hl]
        rfl
      constructor
      · simp only [applyOp, heq, dictSet]
        rw [if_pos hany, keys_map_set]
        exact hnd
      · intro k hk
        simp only [applyOp, heq, dictSet] at hk
        rw [if_pos hany, keys_map_set] at hk
        simp only [applyOp, heq]
        exact hbound k hk
  | delete i =>
    rcases delete_note_state s i with heq | heq
    · simp only [applyOp, heq]
      exact ⟨hnd, hbound⟩
    · have hsub : (dictDel s.notes_store i).Sublist s.notes_store :=
        List.filter_sublist _
      have hsubm := hsub.map Prod.fst
      constructor
      · simp only [applyOp, heq]
        exact List.Nodup.sublist hsubm hnd
      · intro k hk
        simp only [applyOp, heq] at hk
        simp only [applyOp, heq]
        exact hbound k (hsubm.subset hk)

theorem keysInv_runOps {s : AppState} (inv : KeysInv s) (ops : List (Op × Nat)) :
    KeysInv (runOps s ops) := by
  induction ops generalizing s with
  | nil => exact inv
  | cons pr rest ih =>
    rcases pr with ⟨op, t⟩
    exact ih (keysInv_applyOp inv op t)

/-- C6: over any trace of create/update/delete operations from the initial
state, the list of ids assigned by the creates is strictly increasing —
each new note's id exceeds every id ever assigned before it, so ids are
never reused — and the keys of the resulting store are pairwise distinct. -/
theorem created_ids_monotone_unique (ops : List (Op × Nat)) :
    (createdIds initState ops).Pairwise (· < ·) ∧
    ((runOps initState ops).notes_store.map Prod.fst).Nodup :=
  ⟨createdIds_pairwise ops initState,
   (keysInv_runOps ⟨by simp [initState], by simp [initState]⟩ ops).1⟩

/-! ### C10: stored titles are stripped -/

/-- A string with no leading and no trailing whitespace character. -/
def NoSurroundWS (str : String) : Prop :=
  (∀ c, str.data.head? = some c → c.isWhitespace = false) ∧
  (∀ c, str.data.getLast? = some c → c.isWhitespace = false)

theorem head?_dropWhile_false (p : Char → Bool) (l : List Char) (c : Char)
    (hc : (l.dropWhile p).head? = some c) : p c = false := by
  have hne : l.dropWhile p ≠ [] := by
    intro h0
    rw [h0] at hc
    cases hc
  have hhead := List.head_dropWhile_not p l hne
  rw [List.head?_eq_head hne] at hc
  injection hc with hc
  rw [← hc]
  exact hhead

theorem getLast?_cons_ne (a : Char) (rest : List Char) (h : rest ≠ []) :
    (a :: rest).getLast? = rest.getLast? := by
  cases rest with
  | nil => exact absurd rfl h
  | cons b l => exact List.getLast?_cons_cons

theorem getLast?_dropWhile_ne (p : Char → Bool) (l : List Char)
    (h : l.dropWhile p ≠ []) : (l.dropWhile p).getLast? = l.getLast? := by
  induction l with
  | nil => simp at h
  | cons a rest ih =>
    by_cases hpa : p a = true
    · rw [List.dropWhile_cons, if_pos hpa] at h ⊢
      have hrest : rest ≠ [] := by
        intro h0
        subst h0
        simp [List.dropWhile_nil] at h
      rw [ih h, getLast?_cons_ne a rest hrest]
    · rw [List.dropWhile_cons, if_neg hpa]

theorem pyStrip_noSurround (t : String) : NoSurroundWS (pyStrip t) := by
  constructor
  · intro c hc
    simp only [pyStrip, pyStripList] at hc
    rw [List.head?_reverse] at hc
    have hne : ((t.data.dropWhile Char.isWhitespace).reverse.dropWhile
        Char.isWhitespace) ≠ [] := by
      intro h0
      rw [h0] at hc
      cases hc
    rw [getLast?_dropWhile_ne _ _ hne, List.getLast?_reverse] at hc
    exact head?_dropWhile_false _ _ _ hc
  · intro c hc
    simp only [pyStrip, pyStripList] at hc
    rw [List.getLast?_reverse] at hc
    exact head?_dropWhile_false _ _ _ hc

/-- An endpoint-level operation: the mutating HTTP requests. -/
inductive EOp where
  | post (title content : String)
  | patch (note_id : Nat) (title content : Option String)
  | del (note_id : Nat)
deriving DecidableEq, Repr

/-- Apply one endpoint request at clock reading `now`. -/
def applyEOp (s : AppState) : EOp → Nat → AppState
  | .post t c, now => (post_note s t c now).2
  | .patch i t c, now => (patch_note s i t c now).2
  | .del i, _ => (remove_note s i).2

/-- Run a trace of timed endpoint requests. -/
def runEOps (s : AppState) : List (EOp × Nat) → AppState
  | [] => s
  | (op, t) :: rest => runEOps (applyEOp s op t) rest

/-- Every stored title has no leading or trailing whitespace. -/
def TitlesStripped (s : AppState) : Prop :=
  ∀ p ∈ s.notes_store, NoSurroundWS p.2.title

theorem titlesStripped_applyEOp {s : AppState} (inv : TitlesStripped s)
    (op : EOp) (t : Nat) : TitlesStripped (applyEOp s op t) := by
  cases op with
  | post ti c =>
    by_cases hemp : (pyStrip ti).data.isEmpty = true
    · intro p hp
      simp [applyEOp, post_note, hemp] at hp
      exact inv p hp
    · intro p hp
      simp [applyEOp, post_note, hemp, create_note] at hp
      rcases mem_dictSet hp with rfl | hmem
      · exact pyStrip_noSurround ti
      · exact inv p hmem
  | patch i ti c =>
    cases ti with
    | some tt =>
      by_cases hemp : (pyStrip tt).data.isEmpty = true
      · intro p hp
        simp [applyEOp, patch_note, hemp] at hp
        exact inv p hp
      · have h2 : applyEOp s (EOp.patch i (some tt) c) t =
            (update_note s i (some (pyStrip tt)) c t).2 := by
          rcases hu : update_note s i (some (pyStrip tt)) c t with ⟨o, s2⟩
          rcases o with _ | r <;> simp [applyEOp, patch_note, hemp, hu]
        rw [h2]
        rcases update_note_state s i (some (pyStrip tt)) c t with
          ⟨-, hequ⟩ | ⟨n, v, hl, -, -, -, hsup, hequ⟩
        · rw [congrArg Prod.snd hequ]
          exact inv
        · rw [congrArg Prod.snd hequ]
          intro p hp
          rcases mem_dictSet hp with rfl | hmem
          · have hv := hsup (pyStrip tt) rfl
            show NoSurroundWS (i, v).2.title
            rw [hv]
            exact pyStrip_noSurround tt
          · exact inv p hmem
    | none =>
      cases c with
      | none =>
        intro p hp
        simp [applyEOp, patch_note] at hp
        exact inv p hp
      | some cc =>
        have h2 : applyEOp s (EOp.patch i none (some cc)) t =
            (update_note s i none (some cc) t).2 := by
          rcases hu : update_note s i none (some cc) t with ⟨o, s2⟩
          rcases o with _ | r <;> simp [applyEOp, patch_note, hu]
        rw [h2]
        rcases update_note_state s i none (some cc) t with
          ⟨-, hequ⟩ | ⟨n, v, hl, -, -, hnone, -, hequ⟩
        · rw [congrArg Prod.snd hequ]
          exact inv
        · rw [congrArg Prod.snd hequ]
          intro p hp
          rcases mem_dictSet hp with rfl | hmem
          · have hv := hnone rfl
            show NoSurroundWS (i, v).2.title
            rw [hv]
            exact inv _ (mem_of_lookup _ _ _ hl)
          · exact inv p hmem
  | del i =>
    have h2 : applyEOp s (EOp.del i) t = (delete_note s i).2 := by
      rcases hd : delete_note s i with ⟨b, s2⟩
      cases b <;> simp [applyEOp, remove_note, hd]
    rw [h2]
    rcases delete_note_state s i with heq | heq <;> rw [heq]
    · exact inv
    · intro p hp
      exact inv p (mem_dictDel hp)

theorem titlesStripped_runEOps {s : AppState} (inv : TitlesStripped s)
    (ops : List (EOp × Nat)) : TitlesStripped (runEOps s ops) := by
  induction ops generalizing s with
  | nil => exact inv
  | cons pr rest ih =>
    rcases pr with ⟨op, t⟩
    exact ih (titlesStripped_applyEOp inv op t)

theorem post_note_title (s : AppState) (title content : String) (now : Nat)
    (r : Note) (s2 : AppState)
    (h : post_note s title content now = (.ok 201 r, s2)) :
    r.title = pyStrip title := by
  by_cases hemp : (pyStrip title).data.isEmpty = true
  · simp [post_note, hemp] at h
  · simp [post_note, hemp, create_note] at h
    rw [← h.1]

theorem patch_note_title (s : AppState) (note_id : Nat) (title : String)
    (content : Option String) (now : Nat) (r : Note) (s2 : AppState)
    (h : patch_note s note_id (some title) content now = (.ok 200 r, s2)) :
    r.title = pyStrip title := by
  by_cases hemp : (pyStrip title).data.isEmpty = true
  · simp [patch_note, hemp] at h
  · rcases update_note_state s note_id (some (pyStrip title)) content now with
      ⟨-, hequ⟩ | ⟨n, v, hl, -, -, -, hsup, hequ⟩
    · simp [patch_note, hemp, hequ] at h
    · simp [patch_note, hemp, hequ] at h
      rw [← h.1]
      exact hsup _ rfl

/-- C10: every title stored by a successful create (201) or patch with a
supplied title (200) equals the submitted title with surrounding whitespace
stripped (so the stored/returned record may differ from the submitted
title); and after any trace of endpoint requests from the initial state, no
stored title has leading or trailing whitespace. -/
theorem stored_titles_stripped (ops : List (EOp × Nat)) :
    (∀ (s : AppState) (title content : String) (now : Nat) (r : Note) (s2 : AppState),
        post_note s title content now = (.ok 201 r, s2) → r.title = pyStrip title) ∧
    (∀ (s : AppState) (note_id : Nat) (title : String) (content : Option String)
        (now : Nat) (r : Note) (s2 : AppState),
        patch_note s note_id (some title) content now = (.ok 200 r, s2) →
          r.title = pyStrip title) ∧
    ∀ p ∈ (runEOps initState ops).notes_store, NoSurroundWS p.2.title :=
  ⟨post_note_title, patch_note_title,
   titlesStripped_runEOps (fun p hp => by simp [initState] at hp) ops⟩

/-- C10 witness: patching the concrete one-note store with title `" Hi "`
stores and returns the stripped title `"Hi"`. -/
theorem stored_titles_stripped_witness :
    (⟨1, "Hi", "B", 3, 7⟩ : Note).title = pyStrip " Hi " :=
  (stored_titles_stripped []).2.1 ⟨[(1, ⟨1, "Old", "B", 3, 3⟩)], 2⟩ 1 " Hi " none 7
    ⟨1, "Hi", "B", 3, 7⟩ ⟨[(1, ⟨1, "Hi", "B", 3, 7⟩)], 2⟩ (by decide)
